import Mathlib

/-!
Verification of the dxf2svg geometry pipeline.

The definitions below are a shallow embedding of the repository's Python
sources.  Coordinates are modelled as exact rationals (`ℚ`): the Python code
computes with IEEE doubles, and every claim under study is about the exact
arithmetic the source expresses, not about rounding of the binary floats.
The arc/circle flattening (which calls the transcendental `math.cos`,
`math.sin`, `math.pi`) is modelled over the reals.

Sources embedded:
  * `src/test_examples.py` — `point_key`, `group_lines_and_polylines`;
  * `src/dxf2svg_core.py` — `get_bounding_box`, `normalize_coordinates`,
    `get_color_by_index`, `entities_to_svg_elements`, and the ARC/CIRCLE
    branches of `extract_all_lines`;
  * the classifier (`identify_rebar_type`, `get_text_positions` of the class
    `RebarDXFToSVG` imported by `src/test_examples.py`) is not part of the
    repository's files, so it is modelled from the spec (§4.4); the two
    definitions say so in their doc comments.
-/

namespace Dxf2Svg

/-- A 2D coordinate, as manipulated by the Python sources. -/
abbrev Point : Type := ℚ × ℚ

/-- Python's built-in `round` on an exact value: round to the nearest
integer, ties to the even integer (banker's rounding). -/
def pyRound (q : ℚ) : ℤ :=
  if q - ⌊q⌋ < 1/2 then ⌊q⌋
  else if 1/2 < q - ⌊q⌋ then ⌊q⌋ + 1
  else if ⌊q⌋ % 2 = 0 then ⌊q⌋ else ⌊q⌋ + 1

/-- `test_examples.point_key(pt, tol)`: quantize both coordinates to the
tolerance grid, `(round(pt[0]/tol)*tol, round(pt[1]/tol)*tol)`. -/
def point_key (pt : Point) (tol : ℚ) : Point :=
  ((pyRound (pt.1 / tol) : ℚ) * tol, (pyRound (pt.2 / tol) : ℚ) * tol)

/-- The `'type'` tags of the non-`LINE` entity dicts built by
`extract_all_lines`. -/
inductive PolyKind : Type
  | POLYLINE
  | LWPOLYLINE
  | ARC_SEGMENTS
  | CIRCLE_SEGMENTS
deriving DecidableEq, Repr

/-- A canonical entity dict as produced by `extract_all_lines`: either a
`'LINE'` dict carrying `start`/`end`, or one of the polyline-shaped dicts
carrying `points`/`closed`.  The `closed` field is an `Option` because the
Python dict may lack the key (the code reads it with
`entity.get('closed', False)`). -/
inductive Entity : Type
  | line (s e : Point) (layer : String) (color : ℤ)
  | poly (kind : PolyKind) (points : List Point) (closed : Option Bool)
      (layer : String) (color : ℤ)
deriving DecidableEq, Repr

/-- `entity['type'] == 'LINE'`. -/
def isLineB : Entity → Bool
  | .line .. => true
  | .poly .. => false

/-- `entity['type'] in ('POLYLINE', 'LWPOLYLINE')`. -/
def isGroupPolyB : Entity → Bool
  | .poly .POLYLINE .. => true
  | .poly .LWPOLYLINE .. => true
  | _ => false

/-- Any of the polyline-shaped dicts (`POLYLINE`, `LWPOLYLINE`,
`ARC_SEGMENTS`, `CIRCLE_SEGMENTS`). -/
def isPolyB : Entity → Bool
  | .poly .. => true
  | .line .. => false

/-- `entity.get('closed', False)`. -/
def closedOf : Entity → Bool
  | .line .. => false
  | .poly _ _ cl _ _ => cl.getD false

/-- The set `used` built by the first loop of `group_lines_and_polylines`:
the indices of the `POLYLINE`/`LWPOLYLINE` entities. -/
def usedF (ents : List Entity) : Finset (Fin ents.length) :=
  Finset.univ.filter (fun i => isGroupPolyB (ents.get i))

/-- The two quantized endpoint keys of the `LINE` at index `i`
(`[point_key(entities[cur]['start'], tol), point_key(entities[cur]['end'], tol)]`);
only ever applied to `LINE` indices, so the fallback `[]` is unreachable. -/
def segKeys (ents : List Entity) (tol : ℚ) (i : Fin ents.length) : List Point :=
  match ents.get i with
  | .line s e _ _ => [point_key s tol, point_key e tol]
  | .poly .. => []

/-- The `point_to_lines` defaultdict, viewed as the function sending a key
to its list of segment indices.  The second loop of
`group_lines_and_polylines` appends, for each `LINE` index `i` not in
`used`, first `i` under `point_key(start)` and then `i` under
`point_key(end)`, iterating `i` in input order — exactly this list. -/
def point_to_lines (ents : List Entity) (tol : ℚ) (pt : Point) : List (Fin ents.length) :=
  (List.finRange ents.length).flatMap (fun i =>
    match ents.get i with
    | .line s e _ _ =>
        if i ∈ usedF ents then []
        else
          (if point_key s tol = pt then [i] else []) ++
          (if point_key e tol = pt then [i] else [])
    | .poly .. => [])

/-- The neighbours enqueued when the BFS first visits `cur`: for each of the
two quantized endpoint keys of `cur`, every index of `point_to_lines` at
that key other than `cur` and not yet visited (Python checks
`neighbor != cur and neighbor not in visited` after `visited.add(cur)`, so
`visited'` here already holds `cur`). -/
def bfsNbrs (ents : List Entity) (tol : ℚ) (cur : Fin ents.length)
    (visited' : Finset (Fin ents.length)) : List (Fin ents.length) :=
  (segKeys ents tol cur).flatMap (fun pt =>
    (point_to_lines ents tol pt).filter (fun nb => decide (nb ≠ cur ∧ nb ∉ visited')))

/-- The `while queue:` loop of the BFS in `group_lines_and_polylines`,
made structurally recursive on a fuel argument (one unit per pop).  The
caller supplies fuel exceeding the total number of queue insertions that
can ever happen: an unvisited index `j` is enqueued at a first-visit of
`cur` at most once per pair of an endpoint key of `cur` and a matching
endpoint of `j` (at most 4 times), so across the at most `n` first-visits
the insertions number at most `1 + 4 * (n-1 + n-2 + ... + 0) =
1 + 2n(n-1)`, below the `(n+1)(2n+1)` supplied — the zero-fuel branch is
unreachable for the fuel used in `group_lines_idx`.  Returns the final
`visited` set and the group, as the list of the visited indices in visit
order (the Python code appends `entities[cur]`; mapping through
`entities.get` is done by the caller). -/
def bfsAux (ents : List Entity) (tol : ℚ) :
    ℕ → List (Fin ents.length) → Finset (Fin ents.length) → List (Fin ents.length) →
    Finset (Fin ents.length) × List (Fin ents.length)
  | 0, _, visited, group => (visited, group)
  | _ + 1, [], visited, group => (visited, group)
  | fuel + 1, cur :: queue, visited, group =>
    if cur ∈ visited then
      bfsAux ents tol fuel queue visited group
    else
      bfsAux ents tol fuel (queue ++ bfsNbrs ents tol cur (insert cur visited))
        (insert cur visited) (group ++ [cur])

/-- The outer `for idx, entity in enumerate(entities)` loop driving the BFS:
skip an index unless it is an unvisited `LINE` outside `used`; otherwise run
the BFS seeded at it and append the resulting group when nonempty
(`if group: groups.append(group)`). -/
def outerAux (ents : List Entity) (tol : ℚ) (fuel : ℕ) :
    List (Fin ents.length) → Finset (Fin ents.length) → List (List (Fin ents.length)) →
    List (List (Fin ents.length))
  | [], _, acc => acc
  | i :: rest, visited, acc =>
    if isLineB (ents.get i) ∧ i ∉ usedF ents ∧ i ∉ visited then
      let r := bfsAux ents tol fuel [i] visited []
      outerAux ents tol fuel rest r.1 (if r.2.isEmpty then acc else acc ++ [r.2])
    else
      outerAux ents tol fuel rest visited acc

/-- The first loop of `group_lines_and_polylines`: each
`POLYLINE`/`LWPOLYLINE` index becomes a singleton group, in input order. -/
def polyGroupsIdx (ents : List Entity) : List (List (Fin ents.length)) :=
  ((List.finRange ents.length).filter (fun i => isGroupPolyB (ents.get i))).map
    (fun i => [i])

/-- Fuel that dominates the number of BFS queue operations for `n` entities:
`(n+1)(2n+1) = 2n² + 3n + 1` exceeds the `1 + 2n(n-1)` bound on queue
insertions derived in the doc comment of `bfsAux`. -/
def grouperFuel (n : ℕ) : ℕ := (n + 1) * (2 * n + 1)

/-- `group_lines_and_polylines` at the level of entity indices: polyline
singleton groups first (input order), then the BFS groups of `LINE`
indices. -/
def group_lines_idx (ents : List Entity) (tol : ℚ) : List (List (Fin ents.length)) :=
  polyGroupsIdx ents ++
    outerAux ents tol (grouperFuel ents.length) (List.finRange ents.length) ∅ []

/-- The groups of `LINE` indices alone (the part of the output after the
polyline singletons). -/
def lineGroupsIdx (ents : List Entity) (tol : ℚ) : List (List (Fin ents.length)) :=
  outerAux ents tol (grouperFuel ents.length) (List.finRange ents.length) ∅ []

/-- `test_examples.group_lines_and_polylines(entities, tol)`: the groups as
lists of entities (Python appends `entities[cur]`; here each index group is
mapped through the entity list). -/
def group_lines_and_polylines (ents : List Entity) (tol : ℚ) : List (List Entity) :=
  (group_lines_idx ents tol).map (fun g => g.map (ents.get))

/-! ### Bounding box and normalizer (`dxf2svg_core.py`) -/

/-- The `x_coords` list accumulated by `get_bounding_box`: for a `LINE` the
two endpoint x's, otherwise the x of every point, in entity order. -/
def coordsX : List Entity → List ℚ
  | [] => []
  | .line s e _ _ :: rest => s.1 :: e.1 :: coordsX rest
  | .poly _ pts _ _ _ :: rest => pts.map Prod.fst ++ coordsX rest

/-- The `y_coords` list accumulated by `get_bounding_box`. -/
def coordsY : List Entity → List ℚ
  | [] => []
  | .line s e _ _ :: rest => s.2 :: e.2 :: coordsY rest
  | .poly _ pts _ _ _ :: rest => pts.map Prod.snd ++ coordsY rest

/-- `DXFToSVG.get_bounding_box(entities)`: `(min_x, min_y, max_x, max_y)`,
or the placeholder `(0, 0, 100, 100)` for an empty entity list.  (When the
list is nonempty but every entity has an empty point list, Python's
`min([])` raises; that unreachable-under-the-claims case is totalized with
`getD 0`.) -/
def get_bounding_box (ents : List Entity) : ℚ × ℚ × ℚ × ℚ :=
  if ents.isEmpty then (0, 0, 100, 100)
  else (((coordsX ents).min?).getD 0, ((coordsY ents).min?).getD 0,
        ((coordsX ents).max?).getD 0, ((coordsY ents).max?).getD 0)

/-- `orig_width = max_x - min_x` in `normalize_coordinates`. -/
def orig_width (ents : List Entity) : ℚ :=
  (get_bounding_box ents).2.2.1 - (get_bounding_box ents).1

/-- `orig_height = max_y - min_y` in `normalize_coordinates`. -/
def orig_height (ents : List Entity) : ℚ :=
  (get_bounding_box ents).2.2.2 - (get_bounding_box ents).2.1

/-- `available_width = target_width - 2 * margin`. -/
def available_width (W m : ℚ) : ℚ := W - 2 * m

/-- `available_height = target_height - 2 * margin`. -/
def available_height (H m : ℚ) : ℚ := H - 2 * m

/-- `scale_x = available_width / orig_width if orig_width > 0 else 1`. -/
def scale_x (ents : List Entity) (W m : ℚ) : ℚ :=
  if 0 < orig_width ents then available_width W m / orig_width ents else 1

/-- `scale_y = available_height / orig_height if orig_height > 0 else 1`. -/
def scale_y (ents : List Entity) (H m : ℚ) : ℚ :=
  if 0 < orig_height ents then available_height H m / orig_height ents else 1

/-- `scale = min(scale_x, scale_y)`. -/
def scale (ents : List Entity) (W H m : ℚ) : ℚ :=
  min (scale_x ents W m) (scale_y ents H m)

/-- `offset_x = margin + (available_width - scaled_width) / 2` where
`scaled_width = orig_width * scale`. -/
def offset_x (ents : List Entity) (W H m : ℚ) : ℚ :=
  m + (available_width W m - orig_width ents * scale ents W H m) / 2

/-- `offset_y = margin + (available_height - scaled_height) / 2` where
`scaled_height = orig_height * scale`. -/
def offset_y (ents : List Entity) (W H m : ℚ) : ℚ :=
  m + (available_height H m - orig_height ents * scale ents W H m) / 2

/-- The per-point transform of `normalize_coordinates`:
`((x - min_x) * scale + offset_x, target_height - ((y - min_y) * scale + offset_y))`
(the outer subtraction is the vertical flip). -/
def normalize_point (ents : List Entity) (W H m : ℚ) (p : Point) : Point :=
  ((p.1 - (get_bounding_box ents).1) * scale ents W H m + offset_x ents W H m,
   H - ((p.2 - (get_bounding_box ents).2.1) * scale ents W H m + offset_y ents W H m))

/-- The loop body of `normalize_coordinates` for one entity: a `LINE` gets
both endpoints transformed; any other entity gets every point transformed
and its `closed` key written as `entity.get('closed', False)`. -/
def normalize_entity (ents : List Entity) (W H m : ℚ) : Entity → Entity
  | .line s e lay c =>
      .line (normalize_point ents W H m s) (normalize_point ents W H m e) lay c
  | .poly k pts cl lay c =>
      .poly k (pts.map (normalize_point ents W H m)) (some (cl.getD false)) lay c

/-- `DXFToSVG.normalize_coordinates(entities, target_width, target_height, margin)`:
the transform is derived once from the bounding box of the whole input list
and applied to every entity in order. -/
def normalize_coordinates (ents : List Entity) (W H m : ℚ) : List Entity :=
  ents.map (normalize_entity ents W H m)

/-! ### Path emitter (`dxf2svg_core.py`) -/

/-- One command of an SVG path `d` attribute, before string formatting:
`M x,y`, `L x,y` or `Z`. -/
inductive PathCmd : Type
  | moveTo (p : Point)
  | lineTo (p : Point)
  | closePath
deriving DecidableEq, Repr

/-- A drawing primitive produced by `entities_to_svg_elements`: a `<line>`
element or a `<path>` element.  The constant presentation attributes
(`stroke-linecap`, `stroke-linejoin`, `fill`) are the same on every element
and are not modelled. -/
inductive SvgElement : Type
  | lineEl (x1 y1 x2 y2 : ℚ) (stroke : String) (strokeWidth : ℚ)
  | pathEl (cmds : List PathCmd) (stroke : String) (strokeWidth : ℚ)
deriving DecidableEq, Repr

/-- The `color_map` dict of `get_color_by_index`, as an association list. -/
def color_map : List (ℤ × String) :=
  [(1, "#FF0000"), (2, "#FFFF00"), (3, "#00FF00"), (4, "#00FFFF"), (5, "#0000FF"),
   (6, "#FF00FF"), (7, "#FFFFFF"), (8, "#808080"), (9, "#C0C0C0"), (10, "#800000"),
   (11, "#808000"), (12, "#008000"), (13, "#008080"), (14, "#000080"), (15, "#800080")]

/-- `DXFToSVG.get_color_by_index(color_index)`: `color_map.get(color_index, "#000000")`. -/
def get_color_by_index (c : ℤ) : String :=
  (color_map.lookup c).getD "#000000"

/-- The loop body of `entities_to_svg_elements` for one entity: a `LINE`
yields one `<line>` element; any other entity with an empty point list is
skipped (`continue`); otherwise one `<path>` whose commands are `M` at the
first point, `L` at each remaining point in order, and a final `Z` exactly
when `entity.get('closed', False)`. -/
def entity_to_svg (sw : ℚ) : Entity → List SvgElement
  | .line s e _ c => [.lineEl s.1 s.2 e.1 e.2 (get_color_by_index c) sw]
  | .poly _ pts cl _ c =>
      match pts with
      | [] => []
      | p :: rest =>
          [.pathEl (.moveTo p :: (rest.map .lineTo ++
              if cl.getD false then [.closePath] else []))
            (get_color_by_index c) sw]

/-- `DXFToSVG.entities_to_svg_elements(entities)` (with the instance's
`stroke_width` passed explicitly): the `for entity in entities` loop
appending each entity's elements in order. -/
def entities_to_svg_elements (sw : ℚ) : List Entity → List SvgElement
  | [] => []
  | e :: rest => entity_to_svg sw e ++ entities_to_svg_elements sw rest

/-! ### Classifier (not in `src/`; modelled from the spec §4.4) -/

/-- Modelled from the spec: `RebarDXFToSVG.identify_rebar_type(group)` is
called by `src/test_examples.py` but its code is not among the repository's
files.  Spec §4.4, ordered rule table, first match wins: exactly one
Segment and no Polyline → "straight"; exactly two Segments and no Polyline
→ "L-shape"; some Polyline/ApproximatedCurve present and at least one
closed → "stirrup"; some present, none closed → "bent"; otherwise the
fallback "complex". -/
def identify_rebar_type (group : List Entity) : String :=
  if group.countP (fun e => isLineB e) = 1 ∧ group.countP (fun e => isPolyB e) = 0 then
    "straight"
  else if group.countP (fun e => isLineB e) = 2 ∧ group.countP (fun e => isPolyB e) = 0 then
    "L-shape"
  else if 0 < group.countP (fun e => isPolyB e) ∧ group.any (fun e => closedOf e) then
    "stirrup"
  else if 0 < group.countP (fun e => isPolyB e) then "bent"
  else "complex"

/-- The x of the center of a group's bounding box. -/
def bboxCenterX (group : List Entity) : ℚ :=
  ((get_bounding_box group).1 + (get_bounding_box group).2.2.1) / 2

/-- The y of the center of a group's bounding box. -/
def bboxCenterY (group : List Entity) : ℚ :=
  ((get_bounding_box group).2.1 + (get_bounding_box group).2.2.2) / 2

/-- Modelled from the spec: `RebarDXFToSVG.get_text_positions(rebar_type,
group)` is called by `src/test_examples.py` but its code is not among the
repository's files.  Spec §4.4: anchor coordinates are fixed offsets (here
15 units, within the spec's ±10 to ±15) from the group's bounding-box
center/edges, computed after normalization; for "straight" the anchors are
`A` above the center and `total` below it (screen coordinates are Y-down,
so above means smaller `y`). -/
def get_text_positions (rtype : String) (group : List Entity) : List (String × Point) :=
  if rtype = "straight" then
    [("A", (bboxCenterX group, bboxCenterY group - 15)),
     ("total", (bboxCenterX group, bboxCenterY group + 15))]
  else if rtype = "L-shape" then
    [("A", ((get_bounding_box group).1 - 15, bboxCenterY group)),
     ("B", (bboxCenterX group, bboxCenterY group - 15)),
     ("total", (bboxCenterX group, bboxCenterY group + 15))]
  else if rtype = "stirrup" ∨ rtype = "bent" then
    [("A", ((get_bounding_box group).1 - 15, bboxCenterY group)),
     ("B", (bboxCenterX group, (get_bounding_box group).2.1 - 15)),
     ("total", (bboxCenterX group, (get_bounding_box group).2.2.2 + 15))]
  else
    [("A", (bboxCenterX group, bboxCenterY group - 15)),
     ("total", (bboxCenterX group, bboxCenterY group + 15))]

/-! ### Arc and circle flattening (`extract_all_lines`, over `ℝ`) -/

/-- `math.radians(d)`. -/
noncomputable def radians (d : ℝ) : ℝ := d * Real.pi / 180

/-- Python `int(x)` on a float: truncation toward zero. -/
noncomputable def pyInt (x : ℝ) : ℤ := if x < 0 then ⌈x⌉ else ⌊x⌋

/-- The `end_angle` of the ARC branch of `extract_all_lines` after the
adjustment `if end_angle < start_angle: end_angle += 2 * math.pi` (both
angles first converted from degrees by `math.radians`). -/
noncomputable def arcEnd (startDeg endDeg : ℝ) : ℝ :=
  if radians endDeg < radians startDeg then radians endDeg + 2 * Real.pi
  else radians endDeg

/-- `num_segments = max(8, int((end_angle - start_angle) * radius / 10))`
of the ARC branch. -/
noncomputable def arcNumSegments (radius startDeg endDeg : ℝ) : ℤ :=
  max 8 (pyInt ((arcEnd startDeg endDeg - radians startDeg) * radius / 10))

/-- `angle_step = (end_angle - start_angle) / num_segments` of the ARC
branch. -/
noncomputable def arcStep (radius startDeg endDeg : ℝ) : ℝ :=
  (arcEnd startDeg endDeg - radians startDeg) / (arcNumSegments radius startDeg endDeg : ℝ)

/-- The `arc_points` list of the ARC branch: `num_segments + 1` samples,
point `i` at angle `start_angle + i * angle_step`. -/
noncomputable def arcPoints (cx cy radius startDeg endDeg : ℝ) : List (ℝ × ℝ) :=
  (List.range ((arcNumSegments radius startDeg endDeg).toNat + 1)).map (fun i : ℕ =>
    (cx + radius * Real.cos (radians startDeg + (i : ℝ) * arcStep radius startDeg endDeg),
     cy + radius * Real.sin (radians startDeg + (i : ℝ) * arcStep radius startDeg endDeg)))

/-- The ARC branch stores its entity with `'closed': False`. -/
def arcClosed : Bool := false

/-- The CIRCLE branch of `extract_all_lines`: a fixed `num_segments = 32`,
`angle_step = 2 * math.pi / num_segments`, and `num_segments + 1` sample
points (the start point at angle `0` reappears at angle `2π`). -/
noncomputable def circlePoints (cx cy radius : ℝ) : List (ℝ × ℝ) :=
  (List.range (32 + 1)).map (fun i : ℕ =>
    (cx + radius * Real.cos ((i : ℝ) * (2 * Real.pi / 32)),
     cy + radius * Real.sin ((i : ℝ) * (2 * Real.pi / 32))))

/-- The CIRCLE branch stores its entity with `'closed': True`. -/
def circleClosed : Bool := true

/-- The `'type'` string of an entity dict. -/
def etypeOf : Entity → String
  | .line .. => "LINE"
  | .poly .POLYLINE .. => "POLYLINE"
  | .poly .LWPOLYLINE .. => "LWPOLYLINE"
  | .poly .ARC_SEGMENTS .. => "ARC_SEGMENTS"
  | .poly .CIRCLE_SEGMENTS .. => "CIRCLE_SEGMENTS"

/-- The `'layer'` field of an entity dict. -/
def layerOf : Entity → String
  | .line _ _ lay _ => lay
  | .poly _ _ _ lay _ => lay

/-- The `'color'` field of an entity dict. -/
def colorOf : Entity → ℤ
  | .line _ _ _ c => c
  | .poly _ _ _ _ c => c

/-! ### Theorems -/

section

/- Batteries marks the `Rat` arithmetic operations `@[irreducible]`, which
blocks `decide` from evaluating concrete rational computations; the kernel
itself reduces them fine.  Restore the default reducibility locally. -/
attribute [local semireducible] Rat.sub Rat.add Rat.mul Rat.inv

/-! #### Helper lemmas: minima and maxima of affinely mapped coordinate lists -/

theorem foldl_min_map (f : ℚ → ℚ) (hf : ∀ a b, f (min a b) = min (f a) (f b)) :
    ∀ (xs : List ℚ) (x : ℚ), (xs.map f).foldl min (f x) = f (xs.foldl min x) := by
  intro xs
  induction xs with
  | nil => intro x; rfl
  | cons y ys ih =>
      intro x
      simp only [List.map_cons, List.foldl_cons]
      rw [← hf, ih]

theorem foldl_min_map_rev (f : ℚ → ℚ) (hf : ∀ a b, f (max a b) = min (f a) (f b)) :
    ∀ (xs : List ℚ) (x : ℚ), (xs.map f).foldl min (f x) = f (xs.foldl max x) := by
  intro xs
  induction xs with
  | nil => intro x; rfl
  | cons y ys ih =>
      intro x
      simp only [List.map_cons, List.foldl_cons]
      rw [← hf, ih]

theorem foldl_max_map (f : ℚ → ℚ) (hf : ∀ a b, f (max a b) = max (f a) (f b)) :
    ∀ (xs : List ℚ) (x : ℚ), (xs.map f).foldl max (f x) = f (xs.foldl max x) := by
  intro xs
  induction xs with
  | nil => intro x; rfl
  | cons y ys ih =>
      intro x
      simp only [List.map_cons, List.foldl_cons]
      rw [← hf, ih]

theorem foldl_max_map_rev (f : ℚ → ℚ) (hf : ∀ a b, f (min a b) = max (f a) (f b)) :
    ∀ (xs : List ℚ) (x : ℚ), (xs.map f).foldl max (f x) = f (xs.foldl min x) := by
  intro xs
  induction xs with
  | nil => intro x; rfl
  | cons y ys ih =>
      intro x
      simp only [List.map_cons, List.foldl_cons]
      rw [← hf, ih]

theorem min?_map_of_comm (f : ℚ → ℚ) (hf : ∀ a b, f (min a b) = min (f a) (f b)) :
    ∀ xs : List ℚ, (xs.map f).min? = (xs.min?).map f := by
  intro xs
  cases xs with
  | nil => rfl
  | cons y ys =>
      simp only [List.map_cons, List.min?_cons', Option.map_some']
      rw [foldl_min_map f hf]

theorem min?_map_of_rev (f : ℚ → ℚ) (hf : ∀ a b, f (max a b) = min (f a) (f b)) :
    ∀ xs : List ℚ, (xs.map f).min? = (xs.max?).map f := by
  intro xs
  cases xs with
  | nil => rfl
  | cons y ys =>
      simp only [List.map_cons, List.min?_cons', List.max?_cons', Option.map_some']
      rw [foldl_min_map_rev f hf]

theorem max?_map_of_comm (f : ℚ → ℚ) (hf : ∀ a b, f (max a b) = max (f a) (f b)) :
    ∀ xs : List ℚ, (xs.map f).max? = (xs.max?).map f := by
  intro xs
  cases xs with
  | nil => rfl
  | cons y ys =>
      simp only [List.map_cons, List.max?_cons', Option.map_some']
      rw [foldl_max_map f hf]

theorem max?_map_of_rev (f : ℚ → ℚ) (hf : ∀ a b, f (min a b) = max (f a) (f b)) :
    ∀ xs : List ℚ, (xs.map f).max? = (xs.min?).map f := by
  intro xs
  cases xs with
  | nil => rfl
  | cons y ys =>
      simp only [List.map_cons, List.min?_cons', List.max?_cons', Option.map_some']
      rw [foldl_max_map_rev f hf]

theorem affine_min_comm (s c d : ℚ) (hs : 0 ≤ s) (a b : ℚ) :
    (min a b - c) * s + d = min ((a - c) * s + d) ((b - c) * s + d) := by
  rcases le_total a b with h | h
  · rw [min_eq_left h, min_eq_left (by nlinarith)]
  · rw [min_eq_right h, min_eq_right (by nlinarith)]

theorem affine_max_comm (s c d : ℚ) (hs : 0 ≤ s) (a b : ℚ) :
    (max a b - c) * s + d = max ((a - c) * s + d) ((b - c) * s + d) := by
  rcases le_total a b with h | h
  · rw [max_eq_right h, max_eq_right (by nlinarith)]
  · rw [max_eq_left h, max_eq_left (by nlinarith)]

theorem affine_flip_min (s c d H : ℚ) (hs : 0 ≤ s) (a b : ℚ) :
    H - ((max a b - c) * s + d) = min (H - ((a - c) * s + d)) (H - ((b - c) * s + d)) := by
  rcases le_total a b with h | h
  · rw [max_eq_right h, min_eq_right (by nlinarith)]
  · rw [max_eq_left h, min_eq_left (by nlinarith)]

theorem affine_flip_max (s c d H : ℚ) (hs : 0 ≤ s) (a b : ℚ) :
    H - ((min a b - c) * s + d) = max (H - ((a - c) * s + d)) (H - ((b - c) * s + d)) := by
  rcases le_total a b with h | h
  · rw [min_eq_left h, max_eq_left (by nlinarith)]
  · rw [min_eq_right h, max_eq_right (by nlinarith)]

/-! #### Helper lemmas: the coordinate lists of a normalized entity list -/

theorem coordsX_map_normalize (ents : List Entity) (W H m : ℚ) (l : List Entity) :
    coordsX (l.map (normalize_entity ents W H m)) =
      (coordsX l).map (fun x =>
        (x - (get_bounding_box ents).1) * scale ents W H m + offset_x ents W H m) := by
  induction l with
  | nil => rfl
  | cons e rest ih =>
      cases e with
      | line s e lay c => simp [coordsX, normalize_entity, normalize_point, ih]
      | poly k pts cl lay c =>
          simp [coordsX, normalize_entity, normalize_point, ih, List.map_map,
            Function.comp_def]

theorem coordsY_map_normalize (ents : List Entity) (W H m : ℚ) (l : List Entity) :
    coordsY (l.map (normalize_entity ents W H m)) =
      (coordsY l).map (fun y =>
        H - ((y - (get_bounding_box ents).2.1) * scale ents W H m + offset_y ents W H m)) := by
  induction l with
  | nil => rfl
  | cons e rest ih =>
      cases e with
      | line s e lay c => simp [coordsY, normalize_entity, normalize_point, ih]
      | poly k pts cl lay c =>
          simp [coordsY, normalize_entity, normalize_point, ih, List.map_map,
            Function.comp_def]

theorem coordsY_length_eq (l : List Entity) : (coordsY l).length = (coordsX l).length := by
  induction l with
  | nil => rfl
  | cons e rest ih => cases e <;> simp [coordsX, coordsY, ih]

theorem get_bounding_box_of_ne_nil (ents : List Entity) (hne : ents ≠ []) :
    get_bounding_box ents =
      (((coordsX ents).min?).getD 0, ((coordsY ents).min?).getD 0,
       ((coordsX ents).max?).getD 0, ((coordsY ents).max?).getD 0) := by
  unfold get_bounding_box
  rw [if_neg (by simpa using hne)]

theorem coordsX_ne_nil_of_width (ents : List Entity) (hne : ents ≠ [])
    (hw : 0 < orig_width ents) : coordsX ents ≠ [] := by
  intro h
  rw [orig_width, get_bounding_box_of_ne_nil ents hne, h] at hw
  norm_num at hw

theorem coordsY_ne_nil_of_X (ents : List Entity) (hx : coordsX ents ≠ []) :
    coordsY ents ≠ [] := by
  intro h
  have hlen := coordsY_length_eq ents
  rw [h] at hlen
  exact hx (List.length_eq_zero.mp hlen.symm)

/-- The bounding box of a normalized nonempty set, in closed form: the
monotone affine x-transform sends min to min and max to max, the flipped
y-transform swaps them. -/
theorem get_bounding_box_normalize (ents : List Entity) (W H m : ℚ)
    (hne : ents ≠ []) (hx : coordsX ents ≠ []) (hs : 0 ≤ scale ents W H m) :
    get_bounding_box (normalize_coordinates ents W H m) =
      (offset_x ents W H m,
       H - orig_height ents * scale ents W H m - offset_y ents W H m,
       orig_width ents * scale ents W H m + offset_x ents W H m,
       H - offset_y ents W H m) := by
  have hy : coordsY ents ≠ [] := coordsY_ne_nil_of_X ents hx
  have hne' : normalize_coordinates ents W H m ≠ [] := by
    intro h
    exact hne (List.map_eq_nil_iff.mp h)
  obtain ⟨xm, hxm⟩ : ∃ v, (coordsX ents).min? = some v :=
    Option.ne_none_iff_exists'.mp (by simpa using hx)
  obtain ⟨xM, hxM⟩ : ∃ v, (coordsX ents).max? = some v :=
    Option.ne_none_iff_exists'.mp (by simpa using hx)
  obtain ⟨ym, hym⟩ : ∃ v, (coordsY ents).min? = some v :=
    Option.ne_none_iff_exists'.mp (by simpa using hy)
  obtain ⟨yM, hyM⟩ : ∃ v, (coordsY ents).max? = some v :=
    Option.ne_none_iff_exists'.mp (by simpa using hy)
  have hbb := get_bounding_box_of_ne_nil ents hne
  rw [hxm, hxM, hym, hyM] at hbb
  simp only [Option.getD_some] at hbb
  rw [get_bounding_box_of_ne_nil _ hne']
  rw [show normalize_coordinates ents W H m = ents.map (normalize_entity ents W H m) from rfl,
    coordsX_map_normalize, coordsY_map_normalize,
    min?_map_of_comm _ (affine_min_comm _ _ _ hs),
    max?_map_of_comm _ (affine_max_comm _ _ _ hs),
    min?_map_of_rev _ (affine_flip_min _ _ _ _ hs),
    max?_map_of_rev _ (affine_flip_max _ _ _ _ hs),
    hxm, hxM, hym, hyM]
  simp only [Option.map_some', Option.getD_some]
  rw [orig_width, orig_height, hbb]
  refine Prod.ext ?_ (Prod.ext ?_ (Prod.ext ?_ ?_)) <;> ring

/-! #### Helper lemmas: the connectivity grouper -/

theorem isLineB_not_groupPoly {e : Entity} (h : isLineB e = true) :
    isGroupPolyB e = false := by
  cases e with
  | line _ _ _ _ => rfl
  | poly k _ _ _ _ => simp [isLineB] at h

theorem line_not_used (ents : List Entity) (i : Fin ents.length)
    (h : isLineB (ents.get i) = true) : i ∉ usedF ents := by
  rw [usedF, Finset.mem_filter]
  rintro ⟨-, hp⟩
  rw [isLineB_not_groupPoly h] at hp
  simp at hp

theorem point_to_lines_mem (ents : List Entity) (tol : ℚ) (pt : Point)
    (i : Fin ents.length) (h : i ∈ point_to_lines ents tol pt) :
    isLineB (ents.get i) = true ∧ i ∉ usedF ents := by
  rw [point_to_lines, List.mem_flatMap] at h
  obtain ⟨j, -, hj⟩ := h
  rcases hget : ents.get j with ⟨s, e, lay, c⟩ | ⟨k, pts, cl, lay, c⟩ <;>
    rw [hget] at hj <;> dsimp only at hj
  · by_cases hu : j ∈ usedF ents
    · rw [if_pos hu] at hj
      simp at hj
    · rw [if_neg hu] at hj
      have hij : i = j := by
        rcases List.mem_append.mp hj with h1 | h1 <;> revert h1 <;> split <;>
          simp_all
      subst hij
      exact ⟨by rw [hget]; rfl, hu⟩
  · simp at hj

theorem bfsNbrs_mem (ents : List Entity) (tol : ℚ) (cur : Fin ents.length)
    (visited' : Finset (Fin ents.length)) (j : Fin ents.length)
    (h : j ∈ bfsNbrs ents tol cur visited') :
    isLineB (ents.get j) = true ∧ j ∉ usedF ents := by
  rw [bfsNbrs, List.mem_flatMap] at h
  obtain ⟨pt, -, hfil⟩ := h
  exact point_to_lines_mem ents tol pt j (List.mem_of_mem_filter hfil)

theorem bfsAux_zero (ents : List Entity) (tol : ℚ) (q : List (Fin ents.length))
    (v : Finset (Fin ents.length)) (g : List (Fin ents.length)) :
    bfsAux ents tol 0 q v g = (v, g) := rfl

theorem bfsAux_nil (ents : List Entity) (tol : ℚ) (fuel : ℕ)
    (v : Finset (Fin ents.length)) (g : List (Fin ents.length)) :
    bfsAux ents tol (fuel + 1) [] v g = (v, g) := rfl

theorem bfsAux_cons_visited (ents : List Entity) (tol : ℚ) (fuel : ℕ)
    (cur : Fin ents.length) (q : List (Fin ents.length))
    (v : Finset (Fin ents.length)) (g : List (Fin ents.length)) (hc : cur ∈ v) :
    bfsAux ents tol (fuel + 1) (cur :: q) v g = bfsAux ents tol fuel q v g := by
  simp only [bfsAux]
  rw [if_pos hc]

theorem bfsAux_cons_new (ents : List Entity) (tol : ℚ) (fuel : ℕ)
    (cur : Fin ents.length) (q : List (Fin ents.length))
    (v : Finset (Fin ents.length)) (g : List (Fin ents.length)) (hc : cur ∉ v) :
    bfsAux ents tol (fuel + 1) (cur :: q) v g =
      bfsAux ents tol fuel (q ++ bfsNbrs ents tol cur (insert cur v))
        (insert cur v) (g ++ [cur]) := by
  simp only [bfsAux]
  rw [if_neg hc]

/-- The invariant of the BFS loop: relative to the call's `visited` and
`group`, the loop appends a duplicate-free block `d` of newly visited
indices, each previously unvisited and either taken from the queue or drawn
from the adjacency index (hence a `LINE` outside `used`). -/
theorem bfsAux_spec (ents : List Entity) (tol : ℚ) :
    ∀ (fuel : ℕ) (queue : List (Fin ents.length)) (visited : Finset (Fin ents.length))
      (group : List (Fin ents.length)),
      ∃ d : List (Fin ents.length),
        bfsAux ents tol fuel queue visited group = (visited ∪ d.toFinset, group ++ d) ∧
        d.Nodup ∧
        (∀ i ∈ d, i ∉ visited ∧
          (i ∈ queue ∨ (isLineB (ents.get i) = true ∧ i ∉ usedF ents))) := by
  intro fuel
  induction fuel with
  | zero =>
      intro queue visited group
      exact ⟨[], by simp [bfsAux_zero], List.nodup_nil, by simp⟩
  | succ fuel ih =>
      intro queue visited group
      cases queue with
      | nil => exact ⟨[], by simp [bfsAux_nil], List.nodup_nil, by simp⟩
      | cons cur rest =>
          by_cases hc : cur ∈ visited
          · obtain ⟨d, h1, h2, h3⟩ := ih rest visited group
            refine ⟨d, ?_, h2, ?_⟩
            · rw [bfsAux_cons_visited ents tol fuel cur rest visited group hc, h1]
            · intro i hi
              obtain ⟨hnv, hq⟩ := h3 i hi
              exact ⟨hnv, hq.imp_left (List.mem_cons_of_mem _)⟩
          · obtain ⟨d, h1, h2, h3⟩ :=
              ih (rest ++ bfsNbrs ents tol cur (insert cur visited))
                (insert cur visited) (group ++ [cur])
            refine ⟨cur :: d, ?_, ?_, ?_⟩
            · rw [bfsAux_cons_new ents tol fuel cur rest visited group hc, h1]
              refine Prod.ext ?_ ?_
              · show insert cur visited ∪ d.toFinset = visited ∪ (cur :: d).toFinset
                rw [List.toFinset_cons, Finset.union_insert, Finset.insert_union]
              · show (group ++ [cur]) ++ d = group ++ cur :: d
                simp
            · refine List.nodup_cons.mpr ⟨?_, h2⟩
              intro hmem
              exact (h3 cur hmem).1 (Finset.mem_insert_self cur visited)
            · intro i hi
              rcases List.mem_cons.mp hi with rfl | hid
              · exact ⟨hc, Or.inl (List.mem_cons_self _ _)⟩
              · obtain ⟨hnv', hq⟩ := h3 i hid
                refine ⟨fun h => hnv' (Finset.mem_insert_of_mem h), ?_⟩
                rcases hq with hq | hok
                · rcases List.mem_append.mp hq with hq1 | hq2
                  · exact Or.inl (List.mem_cons_of_mem _ hq1)
                  · exact Or.inr (bfsNbrs_mem ents tol cur _ i hq2)
                · exact Or.inr hok

/-- Seeding the BFS at an unvisited index `i` yields a group headed by `i`
followed by a duplicate-free block of previously unvisited `LINE` indices,
and the final visited set is the union of the old one and the group. -/
theorem bfsAux_seed (ents : List Entity) (tol : ℚ) (fuel : ℕ) (i : Fin ents.length)
    (v : Finset (Fin ents.length)) (hi : i ∉ v) :
    ∃ d : List (Fin ents.length),
      bfsAux ents tol (fuel + 1) [i] v [] = (v ∪ (i :: d).toFinset, i :: d) ∧
      (i :: d).Nodup ∧
      ∀ j ∈ d, j ∉ insert i v ∧ isLineB (ents.get j) = true ∧ j ∉ usedF ents := by
  rw [bfsAux_cons_new ents tol fuel i [] v [] hi]
  obtain ⟨d, h1, h2, h3⟩ :=
    bfsAux_spec ents tol fuel ([] ++ bfsNbrs ents tol i (insert i v)) (insert i v) ([] ++ [i])
  refine ⟨d, ?_, ?_, ?_⟩
  · rw [h1]
    refine Prod.ext ?_ ?_
    · show insert i v ∪ d.toFinset = v ∪ (i :: d).toFinset
      rw [List.toFinset_cons, Finset.union_insert, Finset.insert_union]
    · show ([] ++ [i]) ++ d = i :: d
      simp
  · refine List.nodup_cons.mpr ⟨?_, h2⟩
    intro hmem
    exact (h3 i hmem).1 (Finset.mem_insert_self i v)
  · intro j hj
    obtain ⟨hnv, hq⟩ := h3 j hj
    refine ⟨hnv, ?_⟩
    rcases hq with hq | hok
    · rw [List.nil_append] at hq
      exact bfsNbrs_mem ents tol i _ j hq
    · exact hok

theorem outerAux_nil (ents : List Entity) (tol : ℚ) (fuel : ℕ)
    (v : Finset (Fin ents.length)) (acc : List (List (Fin ents.length))) :
    outerAux ents tol fuel [] v acc = acc := rfl

theorem outerAux_cons_go (ents : List Entity) (tol : ℚ) (fuel : ℕ)
    (i : Fin ents.length) (rest : List (Fin ents.length))
    (v : Finset (Fin ents.length)) (acc : List (List (Fin ents.length)))
    (h : isLineB (ents.get i) = true ∧ i ∉ usedF ents ∧ i ∉ v) :
    outerAux ents tol fuel (i :: rest) v acc =
      outerAux ents tol fuel rest (bfsAux ents tol fuel [i] v []).1
        (if (bfsAux ents tol fuel [i] v []).2.isEmpty then acc
         else acc ++ [(bfsAux ents tol fuel [i] v []).2]) := by
  simp only [outerAux]
  rw [if_pos h]

theorem outerAux_cons_skip (ents : List Entity) (tol : ℚ) (fuel : ℕ)
    (i : Fin ents.length) (rest : List (Fin ents.length))
    (v : Finset (Fin ents.length)) (acc : List (List (Fin ents.length)))
    (h : ¬(isLineB (ents.get i) = true ∧ i ∉ usedF ents ∧ i ∉ v)) :
    outerAux ents tol fuel (i :: rest) v acc = outerAux ents tol fuel rest v acc := by
  simp only [outerAux]
  rw [if_neg h]

/-- The invariant of the outer loop, for a sorted index list covering every
not-yet-visited `LINE` index: the loop appends a block of groups that are
nonempty, globally duplicate-free, made of previously unvisited `LINE`
indices outside `used`, covering every such index; each group is headed by
its least index (the seed, the first of the component encountered in the
input), and the heads are strictly increasing across the block. -/
theorem outerAux_spec (ents : List Entity) (tol : ℚ) (fuel : ℕ) (hf : fuel ≠ 0) :
    ∀ (idxs : List (Fin ents.length)), idxs.Pairwise (· < ·) →
    ∀ (visited : Finset (Fin ents.length)) (acc : List (List (Fin ents.length))),
      (∀ j : Fin ents.length, isLineB (ents.get j) = true → j ∉ usedF ents →
        j ∉ visited → j ∈ idxs) →
      ∃ gs : List (List (Fin ents.length)),
        outerAux ents tol fuel idxs visited acc = acc ++ gs ∧
        (∀ g ∈ gs, g ≠ []) ∧
        gs.flatten.Nodup ∧
        (∀ i ∈ gs.flatten, (isLineB (ents.get i) = true ∧ i ∉ usedF ents) ∧ i ∉ visited) ∧
        (∀ j : Fin ents.length, isLineB (ents.get j) = true → j ∉ usedF ents →
          j ∉ visited → j ∈ gs.flatten) ∧
        (∀ g ∈ gs, ∃ i, g.head? = some i ∧ ∀ j ∈ g, i ≤ j) ∧
        (gs.filterMap List.head?).Pairwise (· < ·) := by
  obtain ⟨k, rfl⟩ := Nat.exists_eq_succ_of_ne_zero hf
  intro idxs
  induction idxs with
  | nil =>
      intro _ visited acc hcover
      refine ⟨[], by simp [outerAux_nil], by simp, by simp, by simp, ?_, by simp, by simp⟩
      intro j hl hu hv
      exact absurd (hcover j hl hu hv) (List.not_mem_nil j)
  | cons i rest ih =>
      intro hsort visited acc hcover
      obtain ⟨hlt_all, hsort'⟩ := List.pairwise_cons.mp hsort
      by_cases hcond : isLineB (ents.get i) = true ∧ i ∉ usedF ents ∧ i ∉ visited
      · obtain ⟨hline, hused, hvis⟩ := hcond
        obtain ⟨d, hEqSeed, hNdSeed, hdProps⟩ := bfsAux_seed ents tol k i visited hvis
        have hfst : (bfsAux ents tol (k + 1) [i] visited []).1 =
            visited ∪ (i :: d).toFinset := by rw [hEqSeed]
        have hsnd : (bfsAux ents tol (k + 1) [i] visited []).2 = i :: d := by
          rw [hEqSeed]
        have hd_in_v' : ∀ j ∈ (i :: d), j ∈ visited ∪ (i :: d).toFinset := fun j hj =>
          Finset.mem_union_right _ (List.mem_toFinset.mpr hj)
        have hd_line : ∀ j ∈ (i :: d),
            isLineB (ents.get j) = true ∧ j ∉ usedF ents := by
          intro j hj
          rcases List.mem_cons.mp hj with rfl | hjd
          · exact ⟨hline, hused⟩
          · exact ⟨(hdProps j hjd).2.1, (hdProps j hjd).2.2⟩
        have hd_not_vis : ∀ j ∈ (i :: d), j ∉ visited := by
          intro j hj
          rcases List.mem_cons.mp hj with rfl | hjd
          · exact hvis
          · exact fun h => (hdProps j hjd).1 (Finset.mem_insert_of_mem h)
        have hd_ge : ∀ j ∈ (i :: d), i ≤ j := by
          intro j hj
          rcases List.mem_cons.mp hj with rfl | hjd
          · exact le_refl _
          · by_contra hlt
            push_neg at hlt
            have hjv : j ∉ visited := fun h => (hdProps j hjd).1 (Finset.mem_insert_of_mem h)
            rcases List.mem_cons.mp
                (hcover j (hdProps j hjd).2.1 (hdProps j hjd).2.2 hjv) with hji | hjrest
            · rw [hji] at hlt
              exact lt_irrefl i hlt
            · exact absurd hlt (not_lt_of_gt (hlt_all j hjrest))
        have hcover' : ∀ j : Fin ents.length, isLineB (ents.get j) = true →
            j ∉ usedF ents → j ∉ visited ∪ (i :: d).toFinset → j ∈ rest := by
          intro j hl hu hnv
          have hjv : j ∉ visited := fun h => hnv (Finset.mem_union_left _ h)
          have hne_i : j ≠ i := by
            intro hji
            exact hnv (hji ▸ hd_in_v' i (List.mem_cons_self i d))
          rcases List.mem_cons.mp (hcover j hl hu hjv) with hji | hjr
          · exact absurd hji hne_i
          · exact hjr
        obtain ⟨gs', hEq', hne', hnd', hmem', hcov', hmin', hpair'⟩ :=
          ih hsort' (visited ∪ (i :: d).toFinset) (acc ++ [i :: d]) hcover'
        refine ⟨(i :: d) :: gs', ?_, ?_, ?_, ?_, ?_, ?_, ?_⟩
        · rw [outerAux_cons_go ents tol (k + 1) i rest visited acc ⟨hline, hused, hvis⟩,
            hfst, hsnd]
          simp only [List.isEmpty_cons, Bool.false_eq_true, if_false]
          rw [hEq']
          simp
        · intro g hg
          rcases List.mem_cons.mp hg with rfl | hg'
          · exact List.cons_ne_nil i d
          · exact hne' g hg'
        · rw [List.flatten_cons]
          refine List.nodup_append.mpr ⟨hNdSeed, hnd', ?_⟩
          intro j hj hj'
          exact (hmem' j hj').2 (hd_in_v' j hj)
        · intro j hj
          rw [List.flatten_cons, List.mem_append] at hj
          rcases hj with hj | hj
          · exact ⟨hd_line j hj, hd_not_vis j hj⟩
          · refine ⟨(hmem' j hj).1, fun h => (hmem' j hj).2 (Finset.mem_union_left _ h)⟩
        · intro j hl hu hv
          rw [List.flatten_cons, List.mem_append]
          by_cases hjv' : j ∈ visited ∪ (i :: d).toFinset
          · left
            rcases Finset.mem_union.mp hjv' with h | h
            · exact absurd h hv
            · exact List.mem_toFinset.mp h
          · exact Or.inr (hcov' j hl hu hjv')
        · intro g hg
          rcases List.mem_cons.mp hg with rfl | hg'
          · exact ⟨i, rfl, hd_ge⟩
          · exact hmin' g hg'
        · have hheads : ((i :: d) :: gs').filterMap List.head? =
              i :: gs'.filterMap List.head? := by
            simp [List.filterMap_cons]
          rw [hheads]
          refine List.pairwise_cons.mpr ⟨?_, hpair'⟩
          intro b hb
          obtain ⟨g', hg', hhead⟩ := List.mem_filterMap.mp hb
          have hbg : b ∈ g' := List.mem_of_mem_head? (by rw [hhead]; rfl)
          have hbf : b ∈ gs'.flatten := List.mem_flatten.mpr ⟨g', hg', hbg⟩
          have hbv' : b ∉ visited ∪ (i :: d).toFinset := (hmem' b hbf).2
          have hbv : b ∉ visited := fun h => hbv' (Finset.mem_union_left _ h)
          have hbne : b ≠ i := by
            intro hbi
            exact hbv' (hbi ▸ hd_in_v' i (List.mem_cons_self i d))
          rcases List.mem_cons.mp
              (hcover b (hmem' b hbf).1.1 (hmem' b hbf).1.2 hbv) with hbi | hbr
          · exact absurd hbi hbne
          · exact hlt_all b hbr
      · have hcover' : ∀ j : Fin ents.length, isLineB (ents.get j) = true →
            j ∉ usedF ents → j ∉ visited → j ∈ rest := by
          intro j hl hu hv
          rcases List.mem_cons.mp (hcover j hl hu hv) with hji | hjr
          · exact absurd ⟨hji ▸ hl, hji ▸ hu, hji ▸ hv⟩ hcond
          · exact hjr
        obtain ⟨gs', hEq', hne', hnd', hmem', hcov', hmin', hpair'⟩ :=
          ih hsort' visited acc hcover'
        exact ⟨gs', by rw [outerAux_cons_skip ents tol (k + 1) i rest visited acc hcond,
          hEq'], hne', hnd', hmem', hcov', hmin', hpair'⟩

/-- The grouper's `LINE` part: nonempty groups of unvisited `LINE` indices,
duplicate-free overall, covering every `LINE` index, each group headed by
its least index, heads strictly increasing. -/
theorem lineGroupsIdx_spec (ents : List Entity) (tol : ℚ) :
    (∀ g ∈ lineGroupsIdx ents tol, g ≠ []) ∧
    (lineGroupsIdx ents tol).flatten.Nodup ∧
    (∀ i ∈ (lineGroupsIdx ents tol).flatten,
      isLineB (ents.get i) = true ∧ i ∉ usedF ents) ∧
    (∀ j : Fin ents.length, isLineB (ents.get j) = true → j ∉ usedF ents →
      j ∈ (lineGroupsIdx ents tol).flatten) ∧
    (∀ g ∈ lineGroupsIdx ents tol, ∃ i, g.head? = some i ∧ ∀ j ∈ g, i ≤ j) ∧
    ((lineGroupsIdx ents tol).filterMap List.head?).Pairwise (· < ·) := by
  have hf : grouperFuel ents.length ≠ 0 :=
    Nat.mul_ne_zero (Nat.succ_ne_zero _) (Nat.succ_ne_zero _)
  obtain ⟨gs, hEq, hne, hnd, hmem, hcov, hmin, hpair⟩ :=
    outerAux_spec ents tol (grouperFuel ents.length) hf
      (List.finRange ents.length) (List.pairwise_lt_finRange ents.length) ∅ []
      (fun j _ _ _ => List.mem_finRange j)
  have hL : lineGroupsIdx ents tol = gs := by
    rw [lineGroupsIdx, hEq, List.nil_append]
  rw [hL]
  exact ⟨hne, hnd, fun i hi => (hmem i hi).1,
    fun j hl hu => hcov j hl hu (Finset.not_mem_empty j), hmin, hpair⟩

/-! #### The poly part of the grouper -/

theorem polyGroupsIdx_flatten (ents : List Entity) :
    (polyGroupsIdx ents).flatten =
      (List.finRange ents.length).filter (fun i => isGroupPolyB (ents.get i)) := by
  rw [polyGroupsIdx]
  induction (List.finRange ents.length).filter (fun i => isGroupPolyB (ents.get i)) with
  | nil => rfl
  | cons a l ih => simp [ih]

/-- C1 (amended: `ARC_SEGMENTS`/`CIRCLE_SEGMENTS` entities are dropped, not
covered).  The grouper's output partitions the `LINE` and
`POLYLINE`/`LWPOLYLINE` indices: no group is empty, no index appears twice,
an index appears somewhere exactly when it is a `LINE` or a grouping
polyline (so arcs and circles appear nowhere), every grouping polyline is
its own singleton group, and the entity-level output is the index-level
output read through the entity list. -/
theorem grouper_partition_amended (ents : List Entity) (tol : ℚ) :
    (∀ g ∈ group_lines_idx ents tol, g ≠ []) ∧
    (group_lines_idx ents tol).flatten.Nodup ∧
    (∀ i : Fin ents.length, i ∈ (group_lines_idx ents tol).flatten ↔
      (isLineB (ents.get i) = true ∨ isGroupPolyB (ents.get i) = true)) ∧
    (∀ i : Fin ents.length, isGroupPolyB (ents.get i) = true →
      [i] ∈ group_lines_idx ents tol) ∧
    group_lines_and_polylines ents tol =
      (group_lines_idx ents tol).map (fun g => g.map (ents.get)) := by
  obtain ⟨hne, hnd, hmem, hcov, hmin, hpair⟩ := lineGroupsIdx_spec ents tol
  have hGL : group_lines_idx ents tol = polyGroupsIdx ents ++ lineGroupsIdx ents tol := rfl
  have hPolyMem : ∀ i : Fin ents.length,
      i ∈ (polyGroupsIdx ents).flatten ↔ isGroupPolyB (ents.get i) = true := by
    intro i
    rw [polyGroupsIdx_flatten, List.mem_filter]
    simp [List.mem_finRange]
  have hPolyNd : (polyGroupsIdx ents).flatten.Nodup := by
    rw [polyGroupsIdx_flatten]
    exact (List.nodup_finRange ents.length).filter _
  refine ⟨?_, ?_, ?_, ?_, rfl⟩
  · intro g hg
    rw [hGL, List.mem_append] at hg
    rcases hg with hg | hg
    · obtain ⟨i, -, rfl⟩ := List.mem_map.mp hg
      exact List.cons_ne_nil i []
    · exact hne g hg
  · rw [hGL, List.flatten_append]
    refine List.nodup_append.mpr ⟨hPolyNd, hnd, ?_⟩
    intro j hj hj'
    have hp := (hPolyMem j).mp hj
    have hl := (hmem j hj').1
    rw [isLineB_not_groupPoly hl] at hp
    simp at hp
  · intro i
    rw [hGL, List.flatten_append, List.mem_append]
    constructor
    · rintro (h | h)
      · exact Or.inr ((hPolyMem i).mp h)
      · exact Or.inl (hmem i h).1
    · rintro (h | h)
      · exact Or.inr (hcov i h (line_not_used ents i h))
      · exact Or.inl ((hPolyMem i).mpr h)
  · intro i hp
    rw [hGL, List.mem_append]
    left
    rw [polyGroupsIdx]
    refine List.mem_map.mpr ⟨i, ?_, rfl⟩
    rw [List.mem_filter]
    simpa using hp

/-- C3 (amended: polyline singletons are all emitted before any segment
group).  The grouper emits, first, one singleton group per
`POLYLINE`/`LWPOLYLINE` entity in input order, and then the segment groups;
each segment group is headed by its seed — the least index of its members,
i.e. the component entity encountered first in the input — and the seeds
strictly increase across the emitted segment groups. -/
theorem grouper_order_amended (ents : List Entity) (tol : ℚ) :
    group_lines_idx ents tol = polyGroupsIdx ents ++ lineGroupsIdx ents tol ∧
    polyGroupsIdx ents =
      ((List.finRange ents.length).filter (fun i => isGroupPolyB (ents.get i))).map
        (fun i => [i]) ∧
    (∀ g ∈ lineGroupsIdx ents tol, ∃ i, g.head? = some i ∧ ∀ j ∈ g, i ≤ j) ∧
    ((lineGroupsIdx ents tol).filterMap List.head?).Pairwise (· < ·) := by
  obtain ⟨-, -, -, -, hmin, hpair⟩ := lineGroupsIdx_spec ents tol
  exact ⟨rfl, rfl, hmin, hpair⟩

/-- The binding-dimension facts behind the normalizer: for a non-degenerate
input and a valid canvas configuration the scale is positive, neither scaled
dimension overflows its available span, and at least one fills it exactly. -/
theorem scale_facts (ents : List Entity) (W H m : ℚ)
    (hw : 0 < orig_width ents) (hh : 0 < orig_height ents)
    (haw : 0 < available_width W m) (hah : 0 < available_height H m) :
    0 < scale ents W H m ∧
    orig_width ents * scale ents W H m ≤ available_width W m ∧
    orig_height ents * scale ents W H m ≤ available_height H m ∧
    (orig_width ents * scale ents W H m = available_width W m ∨
     orig_height ents * scale ents W H m = available_height H m) := by
  have hsx_eq : scale_x ents W m = available_width W m / orig_width ents := if_pos hw
  have hsy_eq : scale_y ents H m = available_height H m / orig_height ents := if_pos hh
  have hsx_pos : 0 < scale_x ents W m := by rw [hsx_eq]; exact div_pos haw hw
  have hsy_pos : 0 < scale_y ents H m := by rw [hsy_eq]; exact div_pos hah hh
  have hs_pos : 0 < scale ents W H m := lt_min hsx_pos hsy_pos
  have hW : orig_width ents * scale ents W H m ≤ available_width W m := by
    calc orig_width ents * scale ents W H m
        ≤ orig_width ents * scale_x ents W m :=
          mul_le_mul_of_nonneg_left (min_le_left _ _) hw.le
      _ = available_width W m := by
          rw [hsx_eq, mul_comm, div_mul_cancel₀ _ (ne_of_gt hw)]
  have hH : orig_height ents * scale ents W H m ≤ available_height H m := by
    calc orig_height ents * scale ents W H m
        ≤ orig_height ents * scale_y ents H m :=
          mul_le_mul_of_nonneg_left (min_le_right _ _) hh.le
      _ = available_height H m := by
          rw [hsy_eq, mul_comm, div_mul_cancel₀ _ (ne_of_gt hh)]
  refine ⟨hs_pos, hW, hH, ?_⟩
  rcases le_total (scale_x ents W m) (scale_y ents H m) with hxy | hyx
  · left
    rw [scale, min_eq_left hxy, hsx_eq, mul_comm, div_mul_cancel₀ _ (ne_of_gt hw)]
  · right
    rw [scale, min_eq_right hyx, hsy_eq, mul_comm, div_mul_cancel₀ _ (ne_of_gt hh)]

/-- C2 (amended: the §7 invalid-configuration case `W ≤ 2m` or `H ≤ 2m` is
excluded).  For a nonempty input with positive bounding-box width and
height, the normalized output's bounding box lies inside
`[m, W-m] × [m, H-m]`, and on the binding axis it touches both bounds. -/
theorem normalizer_fits_amended (ents : List Entity) (W H m : ℚ)
    (hne : ents ≠ [])
    (hw : 0 < orig_width ents) (hh : 0 < orig_height ents)
    (haw : 0 < available_width W m) (hah : 0 < available_height H m) :
    (m ≤ (get_bounding_box (normalize_coordinates ents W H m)).1 ∧
     (get_bounding_box (normalize_coordinates ents W H m)).2.2.1 ≤ W - m ∧
     m ≤ (get_bounding_box (normalize_coordinates ents W H m)).2.1 ∧
     (get_bounding_box (normalize_coordinates ents W H m)).2.2.2 ≤ H - m) ∧
    (((get_bounding_box (normalize_coordinates ents W H m)).1 = m ∧
      (get_bounding_box (normalize_coordinates ents W H m)).2.2.1 = W - m) ∨
     ((get_bounding_box (normalize_coordinates ents W H m)).2.1 = m ∧
      (get_bounding_box (normalize_coordinates ents W H m)).2.2.2 = H - m)) := by
  obtain ⟨hs_pos, hsW, hsH, hdisj⟩ := scale_facts ents W H m hw hh haw hah
  have hx : coordsX ents ≠ [] := coordsX_ne_nil_of_width ents hne hw
  have hbbN := get_bounding_box_normalize ents W H m hne hx hs_pos.le
  rw [hbbN]
  simp only [offset_x, offset_y, available_width, available_height] at hsW hsH hdisj ⊢
  constructor
  · refine ⟨by linarith, by linarith, by linarith, by linarith⟩
  · rcases hdisj with hWeq | hHeq
    · exact Or.inl ⟨by linarith, by linarith⟩
    · exact Or.inr ⟨by linarith, by linarith⟩

/-- C2, witness: the segment `(0,0)-(2,1)` into an 800×600 canvas with
margin 50. -/
theorem normalizer_fits_amended_witness :
    ([Entity.line (0, 0) (2, 1) "0" 7] ≠ ([] : List Entity)) ∧
    0 < orig_width [Entity.line (0, 0) (2, 1) "0" 7] ∧
    0 < orig_height [Entity.line (0, 0) (2, 1) "0" 7] ∧
    0 < available_width 800 50 ∧ 0 < available_height 600 50 ∧
    ((50 ≤ (get_bounding_box
        (normalize_coordinates [Entity.line (0, 0) (2, 1) "0" 7] 800 600 50)).1 ∧
      (get_bounding_box
        (normalize_coordinates [Entity.line (0, 0) (2, 1) "0" 7] 800 600 50)).2.2.1 ≤
        800 - 50 ∧
      50 ≤ (get_bounding_box
        (normalize_coordinates [Entity.line (0, 0) (2, 1) "0" 7] 800 600 50)).2.1 ∧
      (get_bounding_box
        (normalize_coordinates [Entity.line (0, 0) (2, 1) "0" 7] 800 600 50)).2.2.2 ≤
        600 - 50) ∧
     (((get_bounding_box
        (normalize_coordinates [Entity.line (0, 0) (2, 1) "0" 7] 800 600 50)).1 = 50 ∧
       (get_bounding_box
        (normalize_coordinates [Entity.line (0, 0) (2, 1) "0" 7] 800 600 50)).2.2.1 =
        800 - 50) ∨
      ((get_bounding_box
        (normalize_coordinates [Entity.line (0, 0) (2, 1) "0" 7] 800 600 50)).2.1 = 50 ∧
       (get_bounding_box
        (normalize_coordinates [Entity.line (0, 0) (2, 1) "0" 7] 800 600 50)).2.2.2 =
        600 - 50))) :=
  ⟨by decide, by decide, by decide, by decide, by decide,
    normalizer_fits_amended _ 800 600 50 (by decide) (by decide) (by decide)
      (by decide) (by decide)⟩

/-- C6 (amended).  Re-applying the normalizer with the same target
dimensions and margin to an already-normalized non-degenerate set derives
an equivalent transform from the output's own bounding box: the second
pass's scale is exactly 1 and its offsets equal the first pass's, so the
horizontal coordinates are unchanged and the output bounding box is
reproduced exactly — but the vertical flip is applied again, so the
vertical coordinates are mirrored inside the same band rather than left
pointwise identical. -/
theorem renormalize_transform_amended (ents : List Entity) (W H m : ℚ)
    (hne : ents ≠ [])
    (hw : 0 < orig_width ents) (hh : 0 < orig_height ents)
    (haw : 0 < available_width W m) (hah : 0 < available_height H m) :
    scale (normalize_coordinates ents W H m) W H m = 1 ∧
    offset_x (normalize_coordinates ents W H m) W H m = offset_x ents W H m ∧
    offset_y (normalize_coordinates ents W H m) W H m = offset_y ents W H m ∧
    coordsX (normalize_coordinates (normalize_coordinates ents W H m) W H m) =
      coordsX (normalize_coordinates ents W H m) ∧
    coordsY (normalize_coordinates (normalize_coordinates ents W H m) W H m) =
      (coordsY (normalize_coordinates ents W H m)).map
        (fun y => (get_bounding_box (normalize_coordinates ents W H m)).2.1 +
          (get_bounding_box (normalize_coordinates ents W H m)).2.2.2 - y) ∧
    get_bounding_box (normalize_coordinates (normalize_coordinates ents W H m) W H m) =
      get_bounding_box (normalize_coordinates ents W H m) := by
  obtain ⟨hs_pos, hsW, hsH, hdisj⟩ := scale_facts ents W H m hw hh haw hah
  have hx : coordsX ents ≠ [] := coordsX_ne_nil_of_width ents hne hw
  have hbbN := get_bounding_box_normalize ents W H m hne hx hs_pos.le
  have hneN : normalize_coordinates ents W H m ≠ [] := by
    intro h
    exact hne (List.map_eq_nil_iff.mp h)
  have hxN : coordsX (normalize_coordinates ents W H m) ≠ [] := by
    rw [show normalize_coordinates ents W H m =
        ents.map (normalize_entity ents W H m) from rfl, coordsX_map_normalize]
    simpa using hx
  have howN : orig_width (normalize_coordinates ents W H m) =
      orig_width ents * scale ents W H m := by
    rw [orig_width, hbbN]
    ring
  have hohN : orig_height (normalize_coordinates ents W H m) =
      orig_height ents * scale ents W H m := by
    rw [orig_height, hbbN]
    ring
  have howN_pos : 0 < orig_width (normalize_coordinates ents W H m) := by
    rw [howN]; exact mul_pos hw hs_pos
  have hohN_pos : 0 < orig_height (normalize_coordinates ents W H m) := by
    rw [hohN]; exact mul_pos hh hs_pos
  have hsxN : scale_x (normalize_coordinates ents W H m) W m =
      available_width W m / (orig_width ents * scale ents W H m) := by
    rw [scale_x, if_pos howN_pos, howN]
  have hsyN : scale_y (normalize_coordinates ents W H m) H m =
      available_height H m / (orig_height ents * scale ents W H m) := by
    rw [scale_y, if_pos hohN_pos, hohN]
  have hsxN_ge : 1 ≤ scale_x (normalize_coordinates ents W H m) W m := by
    rw [hsxN]
    rw [one_le_div (by rw [← howN]; exact howN_pos)]
    exact hsW
  have hsyN_ge : 1 ≤ scale_y (normalize_coordinates ents W H m) H m := by
    rw [hsyN]
    rw [one_le_div (by rw [← hohN]; exact hohN_pos)]
    exact hsH
  have hsN : scale (normalize_coordinates ents W H m) W H m = 1 := by
    rcases hdisj with hWeq | hHeq
    · have h1 : scale_x (normalize_coordinates ents W H m) W m = 1 := by
        rw [hsxN, hWeq, div_self (ne_of_gt haw)]
      rw [scale, h1, min_eq_left hsyN_ge]
    · have h1 : scale_y (normalize_coordinates ents W H m) H m = 1 := by
        rw [hsyN, hHeq, div_self (ne_of_gt hah)]
      rw [scale, h1, min_eq_right hsxN_ge]
  have hoxN : offset_x (normalize_coordinates ents W H m) W H m =
      offset_x ents W H m := by
    rw [offset_x, offset_x, howN, hsN, mul_one]
  have hoyN : offset_y (normalize_coordinates ents W H m) W H m =
      offset_y ents W H m := by
    rw [offset_y, offset_y, hohN, hsN, mul_one]
  refine ⟨hsN, hoxN, hoyN, ?_, ?_, ?_⟩
  · rw [show normalize_coordinates (normalize_coordinates ents W H m) W H m =
        (normalize_coordinates ents W H m).map
          (normalize_entity (normalize_coordinates ents W H m) W H m) from rfl,
      coordsX_map_normalize, hsN, hoxN, hbbN]
    have : ∀ x ∈ coordsX (normalize_coordinates ents W H m),
        (x - offset_x ents W H m) * 1 + offset_x ents W H m = x := by
      intro x _
      ring
    rw [List.map_congr_left this]
    simp
  · rw [show normalize_coordinates (normalize_coordinates ents W H m) W H m =
        (normalize_coordinates ents W H m).map
          (normalize_entity (normalize_coordinates ents W H m) W H m) from rfl,
      coordsY_map_normalize, hsN, hoyN, hbbN]
    refine List.map_congr_left ?_
    intro y _
    ring
  · have h0 : (0 : ℚ) ≤ scale (normalize_coordinates ents W H m) W H m := by
      rw [hsN]; norm_num
    rw [get_bounding_box_normalize (normalize_coordinates ents W H m) W H m hneN hxN h0,
      howN, hohN, hsN, hoxN, hoyN, hbbN]
    simp [mul_one]

/-- C6, witness: the segment `(0,0)-(2,1)` into an 800×600 canvas with
margin 50. -/
theorem renormalize_transform_amended_witness :
    ([Entity.line (0, 0) (2, 1) "0" 7] ≠ ([] : List Entity)) ∧
    0 < orig_width [Entity.line (0, 0) (2, 1) "0" 7] ∧
    0 < orig_height [Entity.line (0, 0) (2, 1) "0" 7] ∧
    0 < available_width 800 50 ∧ 0 < available_height 600 50 ∧
    (scale (normalize_coordinates [Entity.line (0, 0) (2, 1) "0" 7] 800 600 50)
        800 600 50 = 1 ∧
     offset_x (normalize_coordinates [Entity.line (0, 0) (2, 1) "0" 7] 800 600 50)
        800 600 50 = offset_x [Entity.line (0, 0) (2, 1) "0" 7] 800 600 50 ∧
     offset_y (normalize_coordinates [Entity.line (0, 0) (2, 1) "0" 7] 800 600 50)
        800 600 50 = offset_y [Entity.line (0, 0) (2, 1) "0" 7] 800 600 50 ∧
     coordsX (normalize_coordinates
        (normalize_coordinates [Entity.line (0, 0) (2, 1) "0" 7] 800 600 50) 800 600 50) =
       coordsX (normalize_coordinates [Entity.line (0, 0) (2, 1) "0" 7] 800 600 50) ∧
     coordsY (normalize_coordinates
        (normalize_coordinates [Entity.line (0, 0) (2, 1) "0" 7] 800 600 50) 800 600 50) =
       (coordsY (normalize_coordinates [Entity.line (0, 0) (2, 1) "0" 7] 800 600 50)).map
         (fun y =>
           (get_bounding_box
             (normalize_coordinates [Entity.line (0, 0) (2, 1) "0" 7] 800 600 50)).2.1 +
           (get_bounding_box
             (normalize_coordinates [Entity.line (0, 0) (2, 1) "0" 7] 800 600 50)).2.2.2 -
           y) ∧
     get_bounding_box (normalize_coordinates
        (normalize_coordinates [Entity.line (0, 0) (2, 1) "0" 7] 800 600 50) 800 600 50) =
       get_bounding_box
         (normalize_coordinates [Entity.line (0, 0) (2, 1) "0" 7] 800 600 50)) :=
  ⟨by decide, by decide, by decide, by decide, by decide,
    renormalize_transform_amended _ 800 600 50 (by decide) (by decide) (by decide)
      (by decide) (by decide)⟩

/-- C5 (confirmed).  With tolerance `1e-4` the grouper puts the segments
`(0,0)-(1,0)` and `(1,0)-(1,1)` (shared endpoint `(1,0)`) into one group,
and the isolated segment `(5,5)-(6,6)` into a singleton group of its own. -/
theorem shared_endpoint_grouping_example :
    group_lines_and_polylines
        [Entity.line (0, 0) (1, 0) "0" 7, Entity.line (1, 0) (1, 1) "0" 7,
         Entity.line (5, 5) (6, 6) "0" 7] (1/10000) =
      [[Entity.line (0, 0) (1, 0) "0" 7, Entity.line (1, 0) (1, 1) "0" 7],
       [Entity.line (5, 5) (6, 6) "0" 7]] := by decide

/-- C8 (confirmed).  The empty entity list gets the placeholder bounding box
`(0, 0, 100, 100)`, and the normalizer maps the empty list to the empty
list without error, whatever the target dimensions and margin. -/
theorem empty_input_defaults :
    get_bounding_box ([] : List Entity) = (0, 0, 100, 100) ∧
    ∀ W H m : ℚ, normalize_coordinates [] W H m = [] :=
  ⟨rfl, fun _ _ _ => rfl⟩

/-- C1, counterexample.  An `ARC_SEGMENTS` (ApproximatedCurve) entity is
neither a `LINE` nor a `POLYLINE`/`LWPOLYLINE`, so `group_lines_and_polylines`
drops it entirely: on an input holding exactly one arc entity the output is
the empty group list — the arc does not appear as its own singleton group,
contradicting the claim that every input entity is covered exactly once. -/
theorem arc_dropped_counterexample :
    group_lines_and_polylines
        [Entity.poly .ARC_SEGMENTS [(0, 0), (1, 1)] (some false) "0" 7] (1/10000) = [] ∧
    [Entity.poly .ARC_SEGMENTS [(0, 0), (1, 1)] (some false) "0" 7] ∉
      group_lines_and_polylines
        [Entity.poly .ARC_SEGMENTS [(0, 0), (1, 1)] (some false) "0" 7] (1/10000) := by
  decide

/-- C3, counterexample.  On the input `[LINE, POLYLINE]` the seed of the
segment component (index 0) is encountered before the polyline (index 1),
yet the grouper emits the polyline singleton group first, because all
polyline singletons are emitted before any segment group — the emission
order is not the seed first-encounter order claimed. -/
theorem poly_first_counterexample :
    group_lines_and_polylines
        [Entity.line (0, 0) (1, 1) "0" 7,
         Entity.poly .POLYLINE [(2, 2), (3, 3)] (some false) "0" 7] (1/10000) =
      [[Entity.poly .POLYLINE [(2, 2), (3, 3)] (some false) "0" 7],
       [Entity.line (0, 0) (1, 1) "0" 7]] ∧
    Entity.poly .POLYLINE [(2, 2), (3, 3)] (some false) "0" 7 ≠
      Entity.line (0, 0) (1, 1) "0" 7 := by decide

/-- C2, counterexample.  With a margin exceeding half the target width
(`W = 80`, `m = 50`, so `available_width = -20` and the scale is negative)
the output bounding box of a non-degenerate input leaves `[m, W-m]`: its
minimum x is `30 < 50 = m`.  The claim as stated quantifies over all target
dimensions and margins, so it fails; it holds once the §7
invalid-configuration inputs (`W ≤ 2m` or `H ≤ 2m`) are excluded. -/
theorem normalizer_overflow_counterexample :
    [Entity.line (0, 0) (2, 1) "0" 7] ≠ ([] : List Entity) ∧
    0 < orig_width [Entity.line (0, 0) (2, 1) "0" 7] ∧
    0 < orig_height [Entity.line (0, 0) (2, 1) "0" 7] ∧
    ¬ (50 ≤ (get_bounding_box
        (normalize_coordinates [Entity.line (0, 0) (2, 1) "0" 7] 80 600 50)).1) := by
  decide

/-- C6, counterexample.  Re-normalizing an already-normalized set with the
same target dimensions and margin is not pointwise identical: the second
pass applies the vertical flip again, mirroring the content inside the same
vertical band (here `(0,0)-(2,1)` normalizes to `(50,475)-(750,125)` and
re-normalizes to `(50,125)-(750,475)`). -/
theorem renormalize_counterexample :
    normalize_coordinates
        (normalize_coordinates [Entity.line (0, 0) (2, 1) "0" 7] 800 600 50) 800 600 50 ≠
      normalize_coordinates [Entity.line (0, 0) (2, 1) "0" 7] 800 600 50 := by decide

/-- C4 (confirmed).  Arc flattening: the end angle gets a full turn added
exactly when it is below the start angle; the segment count equals
`max(8, floor(sweep * radius / 10))` (Python's `int` truncates toward zero,
which agrees with `floor` under the `max` with 8); the point list has
`num_segments + 1` equally spaced samples whose first point is at the start
angle and whose last point is at the adjusted end angle, with the entity
marked open; a circle always flattens to `32 + 1 = 33` points and is marked
closed; the 90° arc of radius 50 yields `max(8, 7) + 1 = 9` points. -/
theorem arc_circle_flattening (cx cy radius startDeg endDeg : ℝ) :
    arcEnd startDeg endDeg =
      (if radians endDeg < radians startDeg then radians endDeg + 2 * Real.pi
       else radians endDeg) ∧
    arcNumSegments radius startDeg endDeg =
      max 8 ⌊(arcEnd startDeg endDeg - radians startDeg) * radius / 10⌋ ∧
    (arcPoints cx cy radius startDeg endDeg).length =
      (arcNumSegments radius startDeg endDeg).toNat + 1 ∧
    (arcPoints cx cy radius startDeg endDeg).head? =
      some (cx + radius * Real.cos (radians startDeg),
            cy + radius * Real.sin (radians startDeg)) ∧
    (arcPoints cx cy radius startDeg endDeg).getLast? =
      some (cx + radius * Real.cos (arcEnd startDeg endDeg),
            cy + radius * Real.sin (arcEnd startDeg endDeg)) ∧
    arcClosed = false ∧
    (circlePoints cx cy radius).length = 32 + 1 ∧
    circleClosed = true ∧
    (arcPoints 0 0 50 0 90).length = 9 := by
  have hn8 : ∀ r sd ed : ℝ, (8 : ℤ) ≤ arcNumSegments r sd ed := fun r sd ed =>
    le_max_left _ _
  have hcast_pos : ∀ r sd ed : ℝ, (0 : ℝ) < ((arcNumSegments r sd ed).toNat : ℝ) := by
    intro r sd ed
    have h8 := hn8 r sd ed
    have : 0 < (arcNumSegments r sd ed).toNat := by omega
    exact_mod_cast this
  refine ⟨rfl, ?_, ?_, ?_, ?_, rfl, ?_, rfl, ?_⟩
  · rw [arcNumSegments, pyInt]
    split
    · rename_i hneg
      have hc0 : ⌈(arcEnd startDeg endDeg - radians startDeg) * radius / 10⌉ ≤ (0 : ℤ) :=
        Int.ceil_le.mpr (by exact_mod_cast hneg.le)
      have hf0 : ⌊(arcEnd startDeg endDeg - radians startDeg) * radius / 10⌋ ≤ (0 : ℤ) :=
        Int.floor_nonpos hneg.le
      rw [max_eq_left (le_trans hc0 (by norm_num)), max_eq_left (le_trans hf0 (by norm_num))]
    · rfl
  · simp [arcPoints]
  · rw [arcPoints, List.range_succ_eq_map, List.map_cons, List.head?_cons]
    norm_num
  · rw [arcPoints, List.range_succ, List.map_append]
    simp only [List.map_cons, List.map_nil, List.getLast?_concat]
    have h0 : (0 : ℤ) ≤ arcNumSegments radius startDeg endDeg :=
      le_trans (by norm_num) (hn8 radius startDeg endDeg)
    have hcast : ((arcNumSegments radius startDeg endDeg).toNat : ℝ) =
        ((arcNumSegments radius startDeg endDeg : ℤ) : ℝ) := by
      exact_mod_cast congrArg (fun z : ℤ => (z : ℝ)) (Int.toNat_of_nonneg h0)
    have hpos : (0 : ℝ) < ((arcNumSegments radius startDeg endDeg : ℤ) : ℝ) := by
      exact_mod_cast lt_of_lt_of_le (by norm_num) (hn8 radius startDeg endDeg)
    have harg : radians startDeg +
        ((arcNumSegments radius startDeg endDeg).toNat : ℝ) *
          arcStep radius startDeg endDeg = arcEnd startDeg endDeg := by
      rw [arcStep, hcast]
      field_simp
    rw [harg]
  · simp [circlePoints]
  · have hsr : radians 0 = 0 := by simp [radians]
    have her0 : radians 90 = Real.pi / 2 := by rw [radians]; ring
    have hend : arcEnd 0 90 = Real.pi / 2 := by
      rw [arcEnd, hsr, her0, if_neg (not_lt.mpr (by positivity))]
    have hx : (arcEnd 0 90 - radians 0) * 50 / 10 = 5 * Real.pi / 2 := by
      rw [hend, hsr]; ring
    have hfl : ⌊(5 : ℝ) * Real.pi / 2⌋ = 7 := by
      rw [Int.floor_eq_iff]
      constructor
      · nlinarith [Real.pi_gt_d6]
      · nlinarith [Real.pi_lt_d2]
    have hnum : arcNumSegments 50 0 90 = 8 := by
      rw [arcNumSegments, hx, pyInt, if_neg (not_lt.mpr (by positivity)), hfl]
      norm_num
    have hlen : (arcPoints 0 0 50 0 90).length = (arcNumSegments 50 0 90).toNat + 1 := by
      simp [arcPoints]
    rw [hlen, hnum]
    decide

/-- C7 (confirmed).  The emitter skips a polyline-shaped entity with no
points, turns one with points into a single path — move-to at the first
point, line-to at each remaining point in order, close-path exactly when
the (defaulted) closed flag is true — and emits entity contributions in
input order (it distributes over append). -/
theorem path_emitter_poly_shape (sw : ℚ) (k : PolyKind) (p : Point) (ps : List Point)
    (cl : Option Bool) (lay : String) (c : ℤ) (rest : List Entity) :
    entities_to_svg_elements sw (.poly k [] cl lay c :: rest) =
      entities_to_svg_elements sw rest ∧
    entities_to_svg_elements sw (.poly k (p :: ps) cl lay c :: rest) =
      .pathEl (.moveTo p :: (ps.map .lineTo ++ if cl.getD false then [.closePath] else []))
          (get_color_by_index c) sw :: entities_to_svg_elements sw rest ∧
    (∀ pre post : List Entity,
      entities_to_svg_elements sw (pre ++ post) =
        entities_to_svg_elements sw pre ++ entities_to_svg_elements sw post) ∧
    (PathCmd.closePath ∈
        (PathCmd.moveTo p :: (ps.map PathCmd.lineTo ++
          if cl.getD false then [PathCmd.closePath] else [])) ↔
      cl.getD false = true) := by
  refine ⟨rfl, rfl, ?_, ?_⟩
  · intro pre post
    induction pre with
    | nil => rfl
    | cons e rest ih => simp [entities_to_svg_elements, ih]
  · cases h : cl.getD false <;> simp [h]

/-- C10 (confirmed).  The normalizer returns a list of the same length and
order (entry `i` of the output is entry `i` of the input transformed); the
per-entity transform preserves the `'type'`, `'layer'` and `'color'` fields;
a `LINE` keeps its shape with only the two endpoints transformed; any other
entity keeps its kind and points count, its `closed` flag is rewritten to
`entity.get('closed', False)` (defaulting to false when absent), and only
the coordinates change. -/
theorem normalize_frame_preservation (ents : List Entity) (W H m : ℚ) :
    (normalize_coordinates ents W H m).length = ents.length ∧
    (∀ i : ℕ, (normalize_coordinates ents W H m)[i]? =
      (ents[i]?).map (normalize_entity ents W H m)) ∧
    (∀ e, etypeOf (normalize_entity ents W H m e) = etypeOf e ∧
          layerOf (normalize_entity ents W H m e) = layerOf e ∧
          colorOf (normalize_entity ents W H m e) = colorOf e) ∧
    (∀ s e lay c, normalize_entity ents W H m (.line s e lay c) =
      .line (normalize_point ents W H m s) (normalize_point ents W H m e) lay c) ∧
    (∀ k pts cl lay c, normalize_entity ents W H m (.poly k pts cl lay c) =
      .poly k (pts.map (normalize_point ents W H m)) (some (cl.getD false)) lay c) := by
  refine ⟨List.length_map _ _, ?_, ?_, fun _ _ _ _ => rfl, fun _ _ _ _ _ => rfl⟩
  · intro i
    simp [normalize_coordinates]
  · rintro (⟨s, e, lay, c⟩ | ⟨pk, pts, cl, lay, c⟩)
    · exact ⟨rfl, rfl, rfl⟩
    · cases pk <;> exact ⟨rfl, rfl, rfl⟩

/-- C9 (confirmed; classifier modelled from the spec).  A group with exactly
one Segment and no polyline-shaped entity classifies as "straight", and its
text positions carry an `A` anchor strictly above and a `total` anchor
strictly below the group's bounding-box vertical center (screen coordinates
are Y-down, so above is the smaller y). -/
theorem classifier_straight_anchors (g : List Entity)
    (h1 : g.countP (fun e => isLineB e) = 1)
    (h2 : g.countP (fun e => isPolyB e) = 0) :
    identify_rebar_type g = "straight" ∧
    ∃ a t : Point, ("A", a) ∈ get_text_positions (identify_rebar_type g) g ∧
      ("total", t) ∈ get_text_positions (identify_rebar_type g) g ∧
      a.2 < bboxCenterY g ∧ bboxCenterY g < t.2 := by
  have hid : identify_rebar_type g = "straight" := by
    unfold identify_rebar_type
    rw [if_pos ⟨h1, h2⟩]
  refine ⟨hid, (bboxCenterX g, bboxCenterY g - 15),
    (bboxCenterX g, bboxCenterY g + 15), ?_, ?_, ?_, ?_⟩
  · rw [hid]; unfold get_text_positions; rw [if_pos rfl]
    exact List.mem_cons_self _ _
  · rw [hid]; unfold get_text_positions; rw [if_pos rfl]
    exact List.mem_cons_of_mem _ (List.mem_cons_self _ _)
  · show bboxCenterY g - 15 < bboxCenterY g
    linarith
  · show bboxCenterY g < bboxCenterY g + 15
    linarith

/-- C9, witness: one segment `(0,0)-(10,10)`, no polyline. -/
theorem classifier_straight_anchors_witness :
    ([Entity.line (0, 0) (10, 10) "0" 1].countP (fun e => isLineB e) = 1) ∧
    ([Entity.line (0, 0) (10, 10) "0" 1].countP (fun e => isPolyB e) = 0) ∧
    (identify_rebar_type [Entity.line (0, 0) (10, 10) "0" 1] = "straight" ∧
    ∃ a t : Point,
      ("A", a) ∈ get_text_positions
        (identify_rebar_type [Entity.line (0, 0) (10, 10) "0" 1])
        [Entity.line (0, 0) (10, 10) "0" 1] ∧
      ("total", t) ∈ get_text_positions
        (identify_rebar_type [Entity.line (0, 0) (10, 10) "0" 1])
        [Entity.line (0, 0) (10, 10) "0" 1] ∧
      a.2 < bboxCenterY [Entity.line (0, 0) (10, 10) "0" 1] ∧
      bboxCenterY [Entity.line (0, 0) (10, 10) "0" 1] < t.2) :=
  ⟨by decide, by decide, classifier_straight_anchors _ (by decide) (by decide)⟩

end

end Dxf2Svg
